import Mathlib

/-!
# CoinPredict — verification of the prediction-market core

Shallow embedding of the CoinPredict repository (bot.py and server.py):
the SQLite ledger is modelled as lists of rows, prices and timestamps as
rationals, and each operation (market settlement, bet admission on both
the bot and HTTP surfaces, the daily reward, the weekly snapshot and the
rate limiter) as a pure state-transforming function translated directly
from the source.
-/

/- Batteries marks rational arithmetic irreducible; re-allow unfolding so
that concrete runs of the model evaluate by `decide`. -/
attribute [local semireducible] Rat.sub Rat.add Rat.mul Rat.inv

namespace CoinPredict

/-! ## Configuration constants (bot.py lines 37-45, server.py line 27) -/

def DAILY_REWARD_AMOUNT : Int := 100

def MARKET_INTERVAL_MINS : ℚ := 5

def WIN_MULTIPLIER : Int := 2

def MAX_BET_AMOUNT : Int := 10000

def MIN_BET_AMOUNT : Int := 1

def BET_RATE_LIMIT_COUNT : Nat := 3

def BET_RATE_LIMIT_WINDOW : ℚ := 60

/-! ## Data model (the four SQLite relations of init_db, bot.py lines 65-100) -/

/-- A row of the `users` table: telegram_id, username, coins, last_daily. -/
structure User where
  id : Nat
  username : String
  coins : Int
  last_daily : Option String
deriving DecidableEq, Repr

inductive MarketStatus where
  | OPEN
  | CLOSED
deriving DecidableEq, Repr

inductive Direction where
  | UP
  | DOWN
deriving DecidableEq, Repr

/-- A row of the `markets` table.  Prices and times are rationals
(timestamps measured in seconds, prices in USD). -/
structure Market where
  id : Nat
  open_price : ℚ
  close_price : Option ℚ
  open_time : ℚ
  close_time : Option ℚ
  status : MarketStatus
deriving DecidableEq, Repr

/-- A row of the `bets` table. -/
structure Bet where
  id : Nat
  user_id : Nat
  market_id : Nat
  direction : Direction
  amount : Int
  resolved : Bool
deriving DecidableEq, Repr

/-- A row of the `weekly_coins_snapshot` table. -/
structure Snapshot where
  user_id : Nat
  coins_at_week_start : Int
  week_start : String
deriving DecidableEq, Repr

/-- The whole database.  `nextMarketId` / `nextBetId` model the
AUTOINCREMENT counters of the two id columns. -/
structure DB where
  users : List User
  markets : List Market
  bets : List Bet
  snapshots : List Snapshot
  nextMarketId : Nat
  nextBetId : Nat
deriving DecidableEq, Repr

/-- The empty database produced by `init_db`. -/
def initDB : DB := ⟨[], [], [], [], 0, 0⟩

/-! ## Row helpers -/

/-- The SQL update `UPDATE users SET ... WHERE telegram_id = uid`: apply `f` to every
row whose id matches. -/
def updUser (uid : Nat) (f : User → User) (us : List User) : List User :=
  us.map fun v => if v.id = uid then f v else v

/-- The SQL update `UPDATE users SET coins = coins + f b WHERE telegram_id = b.user_id`:
the per-bet credit statement of the settlement loops, with `f` the amount
credited for bet `b`. -/
def creditStep (f : Bet → Int) (us : List User) (b : Bet) : List User :=
  updUser b.user_id (fun u => { u with coins := u.coins + f b }) us

/-- The query `SELECT * FROM users WHERE telegram_id = uid` (first row). -/
def findUserIn (us : List User) (uid : Nat) : Option User :=
  us.find? fun u => u.id == uid

def findUser (db : DB) (uid : Nat) : Option User := findUserIn db.users uid

/-- The user's coin balance, 0 when no row exists. -/
def coinsOf (db : DB) (uid : Nat) : Int := ((findUser db uid).map User.coins).getD 0

/-- The user's last_daily column, none when no row exists. -/
def lastDailyOf (db : DB) (uid : Nat) : Option String :=
  ((findUser db uid).map User.last_daily).getD none

/-- Model of `ensure_user` (bot.py lines 239-248): INSERT OR IGNORE a fresh row
with 0 coins, then refresh the username on every matching row. -/
def ensureUser (uid : Nat) (uname : String) (db : DB) : DB :=
  let inserted :=
    if (findUserIn db.users uid).isSome then db.users
    else db.users ++ [⟨uid, uname, 0, none⟩]
  { db with users := updUser uid (fun u => { u with username := uname }) inserted }

/-- The `/api/user` upsert (server.py lines 110-118) performs the same
INSERT OR IGNORE plus username refresh as the bot's `ensure_user`. -/
def upsertUser (uid : Nat) (uname : String) (db : DB) : DB := ensureUser uid uname db

/-! ## Market engine (bot.py lines 124-195) -/

/-- The clause `ORDER BY id DESC LIMIT 1`: the element of largest id. -/
def pickMaxId : List Market → Option Market
  | [] => none
  | m :: ms =>
    match pickMaxId ms with
    | none => some m
    | some m' => if m.id ≤ m'.id then some m' else some m

/-- Model of `get_open_market` (bot.py lines 124-127): the OPEN market of largest id. -/
def getOpenMarket (db : DB) : Option Market :=
  pickMaxId (db.markets.filter fun m => m.status == MarketStatus.OPEN)

/-- Model of `open_new_market` (bot.py lines 129-140): no-op when the price feed is
unavailable; otherwise insert a fresh OPEN market whose close deadline is
the open time plus the configured interval. -/
def openNewMarket (price : Option ℚ) (now : ℚ) (db : DB) : DB :=
  match price with
  | none => db
  | some p =>
    { db with
      markets := db.markets ++
        [⟨db.nextMarketId, p, none, now, some (now + MARKET_INTERVAL_MINS * 60), .OPEN⟩],
      nextMarketId := db.nextMarketId + 1 }

/-- The expression `abs(close_price - open_price)` of bot.py line 159. -/
def priceDiff (a b : ℚ) : ℚ := if a ≤ b then b - a else a - b

/-- The SQL update `UPDATE markets SET close_price, close_time, status='CLOSED' WHERE id = mid`. -/
def closeMarketRows (mid : Nat) (cp now : ℚ) (ms : List Market) : List Market :=
  ms.map fun m =>
    if m.id = mid then { m with close_price := some cp, close_time := some now, status := .CLOSED }
    else m

/-- Model of `resolve_market` (bot.py lines 142-195).  `closePrice` is the oracle
result fetched before settling; `reopenPrice` the (separate) oracle result
fetched by the final `open_new_market` call. -/
def resolveMarket (closePrice reopenPrice : Option ℚ) (now : ℚ) (db : DB) : DB :=
  match closePrice with
  | none => db
  | some cp =>
    match getOpenMarket db with
    | none => openNewMarket reopenPrice now db
    | some market =>
      let is_tie := priceDiff cp market.open_price < 1/100
      let db1 := { db with markets := closeMarketRows market.id cp now db.markets }
      let all_bets := db1.bets.filter fun b => b.market_id == market.id && !b.resolved
      let db2 :=
        if is_tie then
          let refunded := all_bets.foldl (creditStep fun b => b.amount) db1.users
          { db1 with users := refunded }
        else
          let direction : Direction := if cp > market.open_price then .UP else .DOWN
          let winners := all_bets.filter fun b => b.direction == direction
          let paid := winners.foldl (creditStep fun b => b.amount * WIN_MULTIPLIER) db1.users
          { db1 with users := paid }
      let db3 := { db2 with bets := db2.bets.map fun b =>
          if b.market_id = market.id then { b with resolved := true } else b }
      openNewMarket reopenPrice now db3

/-! ## Weekly snapshot and leaderboard (bot.py lines 199-217, 392-408) -/

/-- Model of `refresh_weekly_snapshot` (bot.py lines 205-217): DELETE the whole
snapshot table, then INSERT every user's current balance tagged with the
week start. -/
def refreshWeeklySnapshot (week : String) (db : DB) : DB :=
  { db with snapshots := db.users.map fun u => ⟨u.id, u.coins, week⟩ }

/-- The expression `COALESCE(s.coins_at_week_start, 0)` for the LEFT JOIN on
`s.user_id = u.telegram_id AND s.week_start = week`. -/
def snapshotCoins (db : DB) (week : String) (uid : Nat) : Int :=
  ((db.snapshots.find? fun s => s.user_id == uid && s.week_start == week).map
    Snapshot.coins_at_week_start).getD 0

/-- The `weekly_gain` column as computed by cmd_leaderboard (bot.py line 400) and the
HTTP leaderboard (server.py line 297). -/
def weeklyGain (db : DB) (week : String) (uid : Nat) : Int :=
  coinsOf db uid - snapshotCoins db week uid

/-! ## Rate limiter (bot.py lines 224-235) -/

/-- Model of `is_rate_limited`: prune timestamps at or before `now − W`, reject when
`N` remain, otherwise record `now` and admit.  Returns the limited flag and
the user's new bucket. -/
def isRateLimited (bucket : List ℚ) (now : ℚ) : Bool × List ℚ :=
  let cutoff := now - BET_RATE_LIMIT_WINDOW
  let pruned := bucket.filter fun t => decide (cutoff < t)
  if BET_RATE_LIMIT_COUNT ≤ pruned.length then (true, pruned)
  else (false, pruned ++ [now])

/-! ## Bet admission -/

inductive BetReject where
  | rate_limited
  | bad_direction
  | bad_amount
  | no_market
  | user_not_found
  | insufficient_funds
  | duplicate_bet
deriving DecidableEq, Repr

inductive BetResult where
  | ok (new_balance : Int) (potential_payout : Int)
  | err (r : BetReject)
deriving DecidableEq, Repr

def parseDirection (s : String) : Direction := if s = "UP" then .UP else .DOWN

/-- Unresolved bets by `uid` on market `mid` (the duplicate-bet query). -/
def duplicateBets (db : DB) (uid mid : Nat) : List Bet :=
  db.bets.filter fun b => b.user_id == uid && b.market_id == mid && !b.resolved

/-- Model of `cmd_bet` (bot.py lines 297-390): the bot-surface admission path.
`amount?` is none when the amount argument is missing or fails to parse as
an integer.  Returns the reply, the new database and the user's new rate
bucket. -/
def cmdBet (uid : Nat) (uname : String) (dirRaw : String) (amount? : Option Int)
    (now : ℚ) (bucket : List ℚ) (db : DB) : BetResult × DB × List ℚ :=
  match isRateLimited bucket now with
  | (true, bucket') => (.err .rate_limited, db, bucket')
  | (false, bucket') =>
    if ¬(dirRaw = "UP" ∨ dirRaw = "DOWN") then (.err .bad_direction, db, bucket')
    else
      match amount? with
      | none => (.err .bad_amount, db, bucket')
      | some amount =>
        if amount < MIN_BET_AMOUNT then (.err .bad_amount, db, bucket')
        else if amount > MAX_BET_AMOUNT then (.err .bad_amount, db, bucket')
        else
          let db1 := ensureUser uid uname db
          match getOpenMarket db1 with
          | none => (.err .no_market, db1, bucket')
          | some market =>
            let coins := coinsOf db1 uid
            if amount > coins then (.err .insufficient_funds, db1, bucket')
            else if (duplicateBets db1 uid market.id).isEmpty = false then
              (.err .duplicate_bet, db1, bucket')
            else
              let db2 := { db1 with
                users := updUser uid (fun u => { u with coins := u.coins - amount }) db1.users,
                bets := db1.bets ++
                  [⟨db1.nextBetId, uid, market.id, parseDirection dirRaw, amount, false⟩],
                nextBetId := db1.nextBetId + 1 }
              (.ok (coins - amount) (amount * WIN_MULTIPLIER), db2, bucket')

/-- Model of `place_bet` (server.py lines 172-234): the HTTP-surface admission path.
There is no rate-limit check and no user auto-creation: an unknown user_id
is rejected with 404.  The new balance is re-queried from the table. -/
def placeBet (uid : Nat) (dirRaw : String) (amount? : Option Int) (db : DB) :
    BetResult × DB :=
  if ¬(dirRaw = "UP" ∨ dirRaw = "DOWN") then (.err .bad_direction, db)
  else
    match amount? with
    | none => (.err .bad_amount, db)
    | some amount =>
      if amount < 1 then (.err .bad_amount, db)
      else if amount > 10000 then (.err .bad_amount, db)
      else
        match getOpenMarket db with
        | none => (.err .no_market, db)
        | some market =>
          match findUser db uid with
          | none => (.err .user_not_found, db)
          | some user =>
            if user.coins < amount then (.err .insufficient_funds, db)
            else if (duplicateBets db uid market.id).isEmpty = false then
              (.err .duplicate_bet, db)
            else
              let db2 := { db with
                users := updUser uid (fun u => { u with coins := u.coins - amount }) db.users,
                bets := db.bets ++
                  [⟨db.nextBetId, uid, market.id, parseDirection dirRaw, amount, false⟩],
                nextBetId := db.nextBetId + 1 }
              (.ok (coinsOf db2 uid) (amount * WIN_MULTIPLIER), db2)

/-! ## Daily reward (bot.py lines 428-474) -/

/-- The SQL update `UPDATE users SET coins = coins + DAILY_REWARD_AMOUNT, last_daily = today`
applied to one row. -/
def grantRow (today : String) (v : User) : User :=
  { v with coins := v.coins + DAILY_REWARD_AMOUNT, last_daily := some today }

/-- The reaction handler's ledger effect: ensure the user exists, no-op when
last_daily already equals today, otherwise credit the fixed reward and set
last_daily.  `notifyDelivered` models whether the out-of-band notification
(sent after the transaction commits, failures swallowed) went through; it
cannot influence the resulting state. -/
def onReaction (uid : Nat) (uname : String) (today : String)
    (notifyDelivered : Bool) (db : DB) : DB :=
  let db1 := ensureUser uid uname db
  match findUser db1 uid with
  | none => db1
  | some u =>
    if u.last_daily = some today then db1
    else
      let granted := updUser uid (grantRow today) db1.users
      { db1 with users := granted }

/-! ## The reachable-state transition system (both processes sharing one db) -/

/-- One externally triggered operation against the shared store. -/
inductive Op where
  | betBot (uid : Nat) (uname : String) (dirRaw : String) (amount? : Option Int) (now : ℚ)
  | betHttp (uid : Nat) (dirRaw : String) (amount? : Option Int)
  | settle (closePrice reopenPrice : Option ℚ) (now : ℚ)
  | reward (uid : Nat) (uname : String) (today : String) (notifyDelivered : Bool)
  | rollover (week : String)
  | upsert (uid : Nat) (uname : String)

/-- Full system state: the database plus the in-memory per-user rate buckets. -/
structure Sys where
  db : DB
  buckets : Nat → List ℚ

def step (op : Op) (s : Sys) : Sys :=
  match op with
  | .betBot uid uname d a now =>
    let r := cmdBet uid uname d a now (s.buckets uid) s.db
    ⟨r.2.1, fun v => if v = uid then r.2.2 else s.buckets v⟩
  | .betHttp uid d a => { s with db := (placeBet uid d a s.db).2 }
  | .settle cp rp now => { s with db := resolveMarket cp rp now s.db }
  | .reward uid uname today nd => { s with db := onReaction uid uname today nd s.db }
  | .rollover w => { s with db := refreshWeeklySnapshot w s.db }
  | .upsert uid uname => { s with db := upsertUser uid uname s.db }

def initSys : Sys := ⟨initDB, fun _ => []⟩

def run (ops : List Op) (s : Sys) : Sys := ops.foldl (fun s op => step op s) s

/-- Number of markets with status OPEN. -/
def openCount (db : DB) : Nat := (db.markets.filter fun m => m.status == MarketStatus.OPEN).length

/-! ## Spec-side payout rule (for the settlement refinement statement) -/

/-- The payout rule in the words of the specification: tie (absolute
difference below 0.01) refunds the stake, a bet on the winning direction
(UP if close > open else DOWN) is credited stake × WIN_MULTIPLIER, a losing
bet is credited nothing. -/
def specPayout (openP closeP : ℚ) (b : Bet) : Int :=
  if |closeP - openP| < 1/100 then b.amount
  else if (closeP > openP ∧ b.direction = .UP) ∨ (¬closeP > openP ∧ b.direction = .DOWN) then
    b.amount * WIN_MULTIPLIER
  else 0

/-- Total credit a user receives from a list of bets under payout rule `f`. -/
def creditsFor (uid : Nat) (f : Bet → Int) (L : List Bet) : Int :=
  ((L.filter fun b => b.user_id == uid).map f).sum

/-! ## Lemmas: row lookup and update -/

theorem findUserIn_id {us : List User} {uid : Nat} {u : User}
    (h : findUserIn us uid = some u) : u.id = uid := by
  have := List.find?_some h
  simpa using this

theorem findUserIn_updUser (uid : Nat) (f : User → User) (hf : ∀ v, (f v).id = v.id)
    (us : List User) (w : Nat) :
    findUserIn (updUser uid f us) w =
      (findUserIn us w).map fun v => if v.id = uid then f v else v := by
  unfold findUserIn updUser
  rw [List.find?_map]
  have hp : ((fun u : User => u.id == w) ∘ fun v => if v.id = uid then f v else v) =
      fun u : User => u.id == w := by
    funext v
    by_cases h : v.id = uid <;> simp [h, hf]
  rw [hp]

theorem updUser_map_id (uid : Nat) (f : User → User) (us : List User)
    (h : ∀ v ∈ us, v.id = uid → f v = v) : updUser uid f us = us := by
  unfold updUser
  have : us.map (fun v => if v.id = uid then f v else v) = us.map id := by
    apply List.map_congr_left
    intro a ha
    by_cases hid : a.id = uid <;> simp [hid, h a ha]
  simpa using this

theorem updUser_map_ids (uid : Nat) (f : User → User) (hf : ∀ v, (f v).id = v.id)
    (us : List User) : (updUser uid f us).map User.id = us.map User.id := by
  unfold updUser
  rw [List.map_map]
  apply List.map_congr_left
  intro a _
  by_cases h : a.id = uid <;> simp [h, hf]

theorem mem_updUser {uid : Nat} {f : User → User} {us : List User} {v : User}
    (h : v ∈ updUser uid f us) :
    ∃ w ∈ us, v = if w.id = uid then f w else w := by
  unfold updUser at h
  obtain ⟨w, hw, rfl⟩ := List.mem_map.1 h
  exact ⟨w, hw, rfl⟩

/-! ## Lemmas: ensureUser -/

theorem ensureUser_bets (uid : Nat) (un : String) (db : DB) :
    (ensureUser uid un db).bets = db.bets := rfl

theorem ensureUser_markets (uid : Nat) (un : String) (db : DB) :
    (ensureUser uid un db).markets = db.markets := rfl

/-- Looking up the ensured user: the existing row with its username
refreshed, or a fresh row with zero coins. -/
theorem findUser_ensureUser (uid : Nat) (un : String) (db : DB) :
    findUser (ensureUser uid un db) uid =
      some (match findUser db uid with
            | some u => { u with username := un }
            | none => ⟨uid, un, 0, none⟩) := by
  unfold ensureUser findUser
  cases h : findUserIn db.users uid with
  | some u =>
    simp only [h, Option.isSome_some, if_pos]
    rw [findUserIn_updUser uid (fun u => { u with username := un }) (fun v => rfl)]
    rw [show findUserIn db.users uid = some u from h]
    have := findUserIn_id h
    simp [this]
  | none =>
    simp only [h, Option.isSome_none, Bool.false_eq_true, if_false]
    rw [findUserIn_updUser uid (fun u => { u with username := un }) (fun v => rfl)]
    unfold findUserIn at h ⊢
    rw [List.find?_append, h]
    simp

/-- Looking up any other user is unaffected by ensureUser. -/
theorem findUser_ensureUser_ne (uid : Nat) (un : String) (db : DB) (w : Nat)
    (hw : w ≠ uid) : findUser (ensureUser uid un db) w = findUser db w := by
  unfold ensureUser findUser
  rw [findUserIn_updUser uid (fun u => { u with username := un }) (fun v => rfl)]
  cases h : findUserIn db.users uid with
  | some u =>
    simp only [h, Option.isSome_some, if_pos]
    cases h2 : findUserIn db.users w with
    | some v =>
      have := findUserIn_id h2
      simp [this, hw]
    | none => simp
  | none =>
    simp only [h, Option.isSome_none, Bool.false_eq_true, if_false]
    unfold findUserIn at *
    rw [List.find?_append]
    cases h2 : List.find? (fun u => u.id == w) db.users with
    | some v =>
      have := findUserIn_id h2
      simp [Option.or, this, hw]
    | none =>
      simp only [Option.or]
      simp [Ne.symm hw, hw]

theorem coinsOf_ensureUser (uid : Nat) (un : String) (db : DB) (w : Nat) :
    coinsOf (ensureUser uid un db) w = coinsOf db w := by
  by_cases hw : w = uid
  · subst hw
    unfold coinsOf
    rw [findUser_ensureUser]
    cases h : findUser db w <;> simp [h]
  · unfold coinsOf
    rw [findUser_ensureUser_ne uid un db w hw]

/-- After `ensureUser`, every row with the target id carries the fresh username. -/
theorem ensureUser_username (uid : Nat) (un : String) (db : DB) :
    ∀ v ∈ (ensureUser uid un db).users, v.id = uid → v.username = un := by
  intro v hv hid
  unfold ensureUser at hv
  obtain ⟨w, _, rfl⟩ := mem_updUser hv
  by_cases h : w.id = uid
  · simp [h]
  · rw [if_neg h] at hid
    exact absurd hid h

theorem ensureUser_isSome (uid : Nat) (un : String) (db : DB) :
    (findUser (ensureUser uid un db) uid).isSome := by
  rw [findUser_ensureUser]; rfl

/-- Applying `ensureUser` is the identity when the user exists and every matching row
already carries the username. -/
theorem ensureUser_eq_self (uid : Nat) (un : String) (db : DB)
    (h1 : (findUser db uid).isSome)
    (h2 : ∀ v ∈ db.users, v.id = uid → v.username = un) :
    ensureUser uid un db = db := by
  unfold ensureUser
  rw [show (findUserIn db.users uid).isSome = true from h1]
  simp only [if_pos]
  rw [updUser_map_id]
  intro v hv hid
  have := h2 v hv hid
  cases v
  simp_all

/-! ## Lemmas: market lookup -/

theorem pickMaxId_mem : ∀ {l : List Market} {m : Market}, pickMaxId l = some m → m ∈ l := by
  intro l
  induction l with
  | nil => intro m h; simp [pickMaxId] at h
  | cons a l ih =>
    intro m h
    unfold pickMaxId at h
    cases hl : pickMaxId l with
    | none => rw [hl] at h; simp at h; simp [h]
    | some m' =>
      rw [hl] at h
      by_cases hle : a.id ≤ m'.id
      · simp [hle] at h
        subst h
        exact List.mem_cons_of_mem a (ih hl)
      · simp [hle] at h
        simp [← h]

theorem pickMaxId_eq_none : ∀ {l : List Market}, pickMaxId l = none ↔ l = [] := by
  intro l
  cases l with
  | nil => simp [pickMaxId]
  | cons a l =>
    simp only [pickMaxId]
    constructor
    · intro h
      cases hl : pickMaxId l <;> rw [hl] at h <;> simp at h
      split at h <;> simp_all
    · intro h; simp at h

theorem getOpenMarket_mem {db : DB} {m : Market} (h : getOpenMarket db = some m) :
    m ∈ db.markets ∧ m.status = .OPEN := by
  have hmem := pickMaxId_mem h
  have := List.mem_filter.1 hmem
  refine ⟨this.1, ?_⟩
  have := this.2
  simpa using this

theorem getOpenMarket_none {db : DB} (h : getOpenMarket db = none) :
    (db.markets.filter fun m => m.status == MarketStatus.OPEN) = [] :=
  pickMaxId_eq_none.1 h

/-! ## Lemmas: crediting users during settlement -/

theorem findUserIn_creditStep (f : Bet → Int) (us : List User) (b : Bet) (w : Nat) :
    findUserIn (creditStep f us b) w =
      (findUserIn us w).map fun v =>
        if v.id = b.user_id then { v with coins := v.coins + f b } else v := by
  unfold creditStep
  exact findUserIn_updUser b.user_id
    (fun u => { u with coins := u.coins + f b }) (fun v => rfl) us w

theorem findUserIn_creditFold (f : Bet → Int) :
    ∀ (L : List Bet) (us : List User) (w : Nat) (u : User),
    findUserIn us w = some u →
    findUserIn (L.foldl (creditStep f) us) w =
      some { u with coins := u.coins + creditsFor w f L } := by
  intro L
  induction L with
  | nil =>
    intro us w u h
    simp only [List.foldl_nil, creditsFor, List.filter_nil, List.map_nil, List.sum_nil]
    rw [h]
    congr 1
    cases u
    simp
  | cons b L ih =>
    intro us w u h
    simp only [List.foldl_cons]
    have hu : u.id = w := findUserIn_id h
    by_cases hb : b.user_id = w
    · have step : findUserIn (creditStep f us b) w =
          some { u with coins := u.coins + f b } := by
        rw [findUserIn_creditStep, h]
        simp [hu, hb]
      rw [ih _ _ _ step]
      congr 1
      simp only [creditsFor, List.filter_cons]
      have : (b.user_id == w) = true := by simp [hb]
      simp only [this, if_pos, List.map_cons, List.sum_cons]
      congr 1
      ring
    · have step : findUserIn (creditStep f us b) w = some u := by
        rw [findUserIn_creditStep, h]
        simp [hu, Ne.symm hb, hb]
      rw [ih _ _ _ step]
      congr 2
      simp only [creditsFor, List.filter_cons]
      have : (b.user_id == w) = false := by simp [hb]
      simp [this]

theorem findUserIn_creditFold_none (f : Bet → Int) :
    ∀ (L : List Bet) (us : List User) (w : Nat),
    findUserIn us w = none →
    findUserIn (L.foldl (creditStep f) us) w = none := by
  intro L
  induction L with
  | nil => intro us w h; simpa using h
  | cons b L ih =>
    intro us w h
    simp only [List.foldl_cons]
    apply ih
    rw [findUserIn_creditStep, h]
    rfl

/-! ## Lemmas: payout sums -/

theorem priceDiff_abs (a b : ℚ) : priceDiff a b = |a - b| := by
  unfold priceDiff
  by_cases h : a ≤ b
  · rw [if_pos h, abs_sub_comm, abs_of_nonneg (by linarith)]
  · rw [if_neg h, abs_of_nonneg (by linarith)]

theorem sum_map_filter (f : Bet → Int) (P : Bet → Bool) (L : List Bet) :
    ((L.filter P).map f).sum = (L.map fun b => if P b then f b else 0).sum := by
  induction L with
  | nil => rfl
  | cons b L ih =>
    simp only [List.filter_cons, List.map_cons, List.sum_cons]
    by_cases hP : P b
    · simp [hP, ih]
    · simp [hP, ih]

theorem creditsFor_congr (w : Nat) (f g : Bet → Int) (L : List Bet)
    (h : ∀ b ∈ L, f b = g b) : creditsFor w f L = creditsFor w g L := by
  unfold creditsFor
  congr 1
  apply List.map_congr_left
  intro b hb
  exact h b (List.mem_filter.1 hb).1

theorem creditsFor_filter (w : Nat) (f : Bet → Int) (P : Bet → Bool) (L : List Bet) :
    creditsFor w f (L.filter P) = creditsFor w (fun b => if P b then f b else 0) L := by
  unfold creditsFor
  rw [List.filter_filter, sum_map_filter, sum_map_filter]
  congr 1
  apply List.map_congr_left
  intro b _
  by_cases hQ : (b.user_id == w) <;> by_cases hP : P b <;> simp [hQ, hP]

/-! ## Lemmas: settlement components -/

theorem closeMarketRows_closes (mid : Nat) (cp t : ℚ) (ms : List Market) :
    ∀ mk ∈ closeMarketRows mid cp t ms, mk.id = mid →
      mk.status = .CLOSED ∧ mk.close_price = some cp ∧ mk.close_time = some t := by
  intro mk hmk hid
  unfold closeMarketRows at hmk
  obtain ⟨a, _, rfl⟩ := List.mem_map.1 hmk
  by_cases h : a.id = mid
  · simp [h]
  · simp only [if_neg h] at hid ⊢
    exact absurd hid h

theorem openNewMarket_users (p : Option ℚ) (t : ℚ) (db : DB) :
    (openNewMarket p t db).users = db.users := by cases p <;> rfl

theorem openNewMarket_bets (p : Option ℚ) (t : ℚ) (db : DB) :
    (openNewMarket p t db).bets = db.bets := by cases p <;> rfl

theorem openNewMarket_snapshots (p : Option ℚ) (t : ℚ) (db : DB) :
    (openNewMarket p t db).snapshots = db.snapshots := by cases p <;> rfl

theorem openNewMarket_mem (p : Option ℚ) (t : ℚ) (db : DB) :
    ∀ mk ∈ (openNewMarket p t db).markets, mk ∈ db.markets ∨ mk.id = db.nextMarketId := by
  intro mk hmk
  cases p with
  | none => exact Or.inl hmk
  | some v =>
    simp only [openNewMarket, List.mem_append, List.mem_singleton] at hmk
    cases hmk with
    | inl h => exact Or.inl h
    | inr h => subst h; exact Or.inr rfl

/-- Settlement of a found OPEN market, written out explicitly. -/
theorem resolveMarket_open (db : DB) (rp : Option ℚ) (q now : ℚ) (m : Market)
    (hm : getOpenMarket db = some m) :
    resolveMarket (some q) rp now db =
      (let db1 : DB := { db with markets := closeMarketRows m.id q now db.markets }
       let all_bets := db1.bets.filter fun b => b.market_id == m.id && !b.resolved
       let db2 :=
         if priceDiff q m.open_price < 1/100 then
           { db1 with users := all_bets.foldl (creditStep fun b => b.amount) db1.users }
         else
           let direction : Direction := if q > m.open_price then .UP else .DOWN
           let winners := all_bets.filter fun b => b.direction == direction
           { db1 with users :=
               winners.foldl (creditStep fun b => b.amount * WIN_MULTIPLIER) db1.users }
       let db3 := { db2 with bets := db2.bets.map fun b =>
           if b.market_id = m.id then { b with resolved := true } else b }
       openNewMarket rp now db3) := by
  unfold resolveMarket
  rw [hm]

theorem coinsOf_openNewMarket (p : Option ℚ) (t : ℚ) (db : DB) (w : Nat) :
    coinsOf (openNewMarket p t db) w = coinsOf db w := by
  unfold coinsOf findUser
  rw [openNewMarket_users]

/-- C1: settling an open market with an available close price marks the
market CLOSED with close price and time, marks every bet on it resolved,
and credits every user, over their unresolved bets on that market, the
specification payout: the full stake back on a tie (absolute difference
below 0.01), stake × WIN_MULTIPLIER (2×) on a bet matching the winning
direction (UP if close > open else DOWN), nothing on a losing bet. -/
theorem C1_settlement (db : DB) (rp : Option ℚ) (q now : ℚ) (m : Market)
    (hm : getOpenMarket db = some m)
    (hid : ∀ mk ∈ db.markets, mk.id < db.nextMarketId) :
    WIN_MULTIPLIER = 2 ∧
    (∀ mk ∈ (resolveMarket (some q) rp now db).markets, mk.id = m.id →
       mk.status = .CLOSED ∧ mk.close_price = some q ∧ mk.close_time = some now) ∧
    (∀ b ∈ (resolveMarket (some q) rp now db).bets, b.market_id = m.id → b.resolved = true) ∧
    (∀ uid u, findUser db uid = some u →
       coinsOf (resolveMarket (some q) rp now db) uid =
         u.coins + creditsFor uid (specPayout m.open_price q)
           (db.bets.filter fun b => b.market_id == m.id && !b.resolved)) := by
  obtain ⟨hmMem, _⟩ := getOpenMarket_mem hm
  rw [resolveMarket_open db rp q now m hm]
  dsimp only
  by_cases htie : priceDiff q m.open_price < 1/100
  · rw [if_pos htie]
    refine ⟨rfl, ?_, ?_, ?_⟩
    · intro mk hmk hmkid
      rcases openNewMarket_mem _ _ _ mk hmk with h | h
      · exact closeMarketRows_closes m.id q now db.markets mk h hmkid
      · exact absurd (hmkid ▸ h ▸ hid m hmMem).false (by simp)
    · intro b hb hbm
      rw [openNewMarket_bets] at hb
      obtain ⟨a, _, rfl⟩ := List.mem_map.1 hb
      by_cases h : a.market_id = m.id
      · simp [h]
      · simp only [if_neg h] at hbm ⊢
        exact absurd hbm h
    · intro uid u hu
      rw [coinsOf_openNewMarket]
      unfold coinsOf findUser
      rw [findUserIn_creditFold (fun b => b.amount) _ _ _ _ hu]
      simp only [Option.map_some', Option.getD_some]
      congr 1
      apply creditsFor_congr
      intro b _
      rw [priceDiff_abs] at htie
      unfold specPayout
      rw [if_pos htie]
  · rw [if_neg htie]
    refine ⟨rfl, ?_, ?_, ?_⟩
    · intro mk hmk hmkid
      rcases openNewMarket_mem _ _ _ mk hmk with h | h
      · exact closeMarketRows_closes m.id q now db.markets mk h hmkid
      · exact absurd (hmkid ▸ h ▸ hid m hmMem).false (by simp)
    · intro b hb hbm
      rw [openNewMarket_bets] at hb
      obtain ⟨a, _, rfl⟩ := List.mem_map.1 hb
      by_cases h : a.market_id = m.id
      · simp [h]
      · simp only [if_neg h] at hbm ⊢
        exact absurd hbm h
    · intro uid u hu
      rw [coinsOf_openNewMarket]
      unfold coinsOf findUser
      rw [findUserIn_creditFold (fun b => b.amount * WIN_MULTIPLIER) _ _ _ _ hu]
      simp only [Option.map_some', Option.getD_some]
      congr 1
      rw [creditsFor_filter]
      apply creditsFor_congr
      intro b _
      rw [priceDiff_abs] at htie
      unfold specPayout
      rw [if_neg htie]
      by_cases hgt : q > m.open_price
      · cases hb : b.direction <;> simp [hgt, hb]
      · cases hb : b.direction <;> simp [hgt, hb]

/-! ## Concrete sample databases used by the witnesses -/

/-- One user with 10 coins, one open market, no bets. -/
def sampleDB : DB :=
  { users := [⟨7, "al", 10, none⟩],
    markets := [⟨0, 100, none, 0, some 300, .OPEN⟩],
    bets := [], snapshots := [], nextMarketId := 1, nextBetId := 0 }

/-- One user with 5 coins holding an unresolved 5-coin UP bet on the open market. -/
def betDB : DB :=
  { users := [⟨7, "al", 5, none⟩],
    markets := [⟨0, 100, none, 0, some 300, .OPEN⟩],
    bets := [⟨0, 7, 0, .UP, 5, false⟩],
    snapshots := [], nextMarketId := 1, nextBetId := 1 }

/-- Witness for C1: settling betDB at close price 200 (a win for the UP
bet) credits user 7 exactly the spec payout over their unresolved bets. -/
theorem C1_settlement_w :
    coinsOf (resolveMarket (some 200) none 310 betDB) 7 =
      (5 : Int) + creditsFor 7 (specPayout 100 200)
        (betDB.bets.filter fun b => b.market_id == 0 && !b.resolved) :=
  (C1_settlement betDB none 200 310 ⟨0, 100, none, 0, some 300, .OPEN⟩
    (by decide) (by decide)).2.2.2 7 ⟨7, "al", 5, none⟩ (by decide)

/-! ## C2: successful bet admission -/

/-- C2: a bet request that passes every admission precondition debits the
balance by exactly the amount, inserts one unresolved bet row, and returns
the new balance together with a potential payout of amount × WIN_MULTIPLIER —
on the bot surface (first conjunct) and the HTTP surface (second). -/
theorem C2_admission (db : DB) (uid : Nat) (uname dirRaw : String) (a : Int)
    (now : ℚ) (bucket : List ℚ) (m : Market) (u : User) :
    ((isRateLimited bucket now).1 = false →
     (dirRaw = "UP" ∨ dirRaw = "DOWN") →
     MIN_BET_AMOUNT ≤ a → a ≤ MAX_BET_AMOUNT →
     getOpenMarket (ensureUser uid uname db) = some m →
     a ≤ coinsOf (ensureUser uid uname db) uid →
     duplicateBets (ensureUser uid uname db) uid m.id = [] →
     (cmdBet uid uname dirRaw (some a) now bucket db).1 =
        .ok (coinsOf (ensureUser uid uname db) uid - a) (a * WIN_MULTIPLIER) ∧
     coinsOf (cmdBet uid uname dirRaw (some a) now bucket db).2.1 uid =
        coinsOf (ensureUser uid uname db) uid - a ∧
     (cmdBet uid uname dirRaw (some a) now bucket db).2.1.bets =
        db.bets ++ [⟨db.nextBetId, uid, m.id, parseDirection dirRaw, a, false⟩]) ∧
    ((dirRaw = "UP" ∨ dirRaw = "DOWN") →
     1 ≤ a → a ≤ 10000 →
     getOpenMarket db = some m →
     findUser db uid = some u →
     a ≤ u.coins →
     duplicateBets db uid m.id = [] →
     (placeBet uid dirRaw (some a) db).1 = .ok (u.coins - a) (a * WIN_MULTIPLIER) ∧
     coinsOf (placeBet uid dirRaw (some a) db).2 uid = u.coins - a ∧
     (placeBet uid dirRaw (some a) db).2.bets =
        db.bets ++ [⟨db.nextBetId, uid, m.id, parseDirection dirRaw, a, false⟩]) := by
  constructor
  · intro hrl hdir h1 h2 hm' hbal hdup
    have hp : isRateLimited bucket now = (false, (isRateLimited bucket now).2) := by
      rw [← hrl]
    have e : cmdBet uid uname dirRaw (some a) now bucket db =
        (.ok (coinsOf (ensureUser uid uname db) uid - a) (a * WIN_MULTIPLIER),
         { ensureUser uid uname db with
             users := updUser uid (fun v => { v with coins := v.coins - a })
               (ensureUser uid uname db).users,
             bets := (ensureUser uid uname db).bets ++
               [⟨(ensureUser uid uname db).nextBetId, uid, m.id, parseDirection dirRaw, a, false⟩],
             nextBetId := (ensureUser uid uname db).nextBetId + 1 },
         (isRateLimited bucket now).2) := by
      unfold cmdBet
      rw [hp]
      dsimp only
      rw [if_neg (not_not_intro hdir)]
      rw [if_neg (not_lt.mpr h1), if_neg (not_lt.mpr h2)]
      rw [hm']
      dsimp only
      rw [if_neg (not_lt.mpr hbal)]
      rw [hdup]
      dsimp only [List.isEmpty_nil]
      rw [if_neg (by simp)]
    obtain ⟨u1, hu1⟩ := Option.isSome_iff_exists.mp (ensureUser_isSome uid uname db)
    have hid1 : u1.id = uid := findUserIn_id hu1
    have hcoins : coinsOf (ensureUser uid uname db) uid = u1.coins := by
      unfold coinsOf
      rw [hu1]
      rfl
    refine ⟨by rw [e], ?_, by rw [e]; rfl⟩
    rw [e]
    unfold coinsOf findUser
    dsimp only
    rw [findUserIn_updUser uid (fun v => { v with coins := v.coins - a }) (fun v => rfl)]
    rw [show findUserIn (ensureUser uid uname db).users uid = some u1 from hu1]
    simp [hid1, hcoins]
  · intro hdir h1 h2 hm' hu' hbal hdup
    have hid1 : u.id = uid := findUserIn_id hu'
    have e : placeBet uid dirRaw (some a) db =
        (.ok (coinsOf { db with
             users := updUser uid (fun v => { v with coins := v.coins - a }) db.users,
             bets := db.bets ++ [⟨db.nextBetId, uid, m.id, parseDirection dirRaw, a, false⟩],
             nextBetId := db.nextBetId + 1 } uid) (a * WIN_MULTIPLIER),
         { db with
             users := updUser uid (fun v => { v with coins := v.coins - a }) db.users,
             bets := db.bets ++ [⟨db.nextBetId, uid, m.id, parseDirection dirRaw, a, false⟩],
             nextBetId := db.nextBetId + 1 }) := by
      unfold placeBet
      rw [if_neg (not_not_intro hdir)]
      dsimp only
      rw [if_neg (not_lt.mpr h1), if_neg (not_lt.mpr h2), hm']
      dsimp only
      rw [show findUser db uid = some u from hu']
      dsimp only
      rw [if_neg (not_lt.mpr hbal)]
      rw [hdup]
      dsimp only [List.isEmpty_nil]
      rw [if_neg (by simp)]
    have hc2 : coinsOf { db with
        users := updUser uid (fun v => { v with coins := v.coins - a }) db.users,
        bets := db.bets ++ [⟨db.nextBetId, uid, m.id, parseDirection dirRaw, a, false⟩],
        nextBetId := db.nextBetId + 1 } uid = u.coins - a := by
      unfold coinsOf findUser
      dsimp only
      rw [findUserIn_updUser uid (fun v => { v with coins := v.coins - a }) (fun v => rfl)]
      rw [show findUserIn db.users uid = some u from hu']
      simp [hid1]
    refine ⟨?_, ?_, by rw [e]⟩
    · rw [e]
      dsimp only
      rw [hc2]
    · rw [e]
      dsimp only
      exact hc2

/-- Witness for C2: in sampleDB, user 7 (10 coins) bets 5 UP; both
surfaces succeed, debit 5 and insert the bet row. -/
theorem C2_admission_w :
    ((cmdBet 7 "al" "UP" (some 5) 0 [] sampleDB).1 =
        .ok (coinsOf (ensureUser 7 "al" sampleDB) 7 - 5) (5 * WIN_MULTIPLIER) ∧
     coinsOf (cmdBet 7 "al" "UP" (some 5) 0 [] sampleDB).2.1 7 =
        coinsOf (ensureUser 7 "al" sampleDB) 7 - 5 ∧
     (cmdBet 7 "al" "UP" (some 5) 0 [] sampleDB).2.1.bets =
        sampleDB.bets ++ [⟨sampleDB.nextBetId, 7, 0, parseDirection "UP", 5, false⟩]) ∧
    ((placeBet 7 "UP" (some 5) sampleDB).1 =
        .ok ((User.mk 7 "al" 10 none).coins - 5) (5 * WIN_MULTIPLIER) ∧
     coinsOf (placeBet 7 "UP" (some 5) sampleDB).2 7 = (User.mk 7 "al" 10 none).coins - 5 ∧
     (placeBet 7 "UP" (some 5) sampleDB).2.bets =
        sampleDB.bets ++ [⟨sampleDB.nextBetId, 7, 0, parseDirection "UP", 5, false⟩]) :=
  ⟨(C2_admission sampleDB 7 "al" "UP" 5 0 [] ⟨0, 100, none, 0, some 300, .OPEN⟩
      ⟨7, "al", 10, none⟩).1 (by decide) (Or.inl rfl) (by decide) (by decide)
      (by decide) (by decide) (by decide),
   (C2_admission sampleDB 7 "al" "UP" 5 0 [] ⟨0, 100, none, 0, some 300, .OPEN⟩
      ⟨7, "al", 10, none⟩).2 (Or.inl rfl) (by decide) (by decide) (by decide)
      (by decide) (by decide) (by decide)⟩

end CoinPredict

namespace CoinPredict

/-! ## Case analyses of the two admission paths -/

/-- Every outcome of cmdBet: success, rejection leaving the db untouched,
or rejection after the `ensure_user` upsert. -/
theorem cmdBet_cases (db : DB) (uid : Nat) (uname dirRaw : String) (amount? : Option Int)
    (now : ℚ) (bucket : List ℚ) :
    (∃ nb pp d2 bk, cmdBet uid uname dirRaw amount? now bucket db = (.ok nb pp, d2, bk)) ∨
    (∃ e bk, cmdBet uid uname dirRaw amount? now bucket db = (.err e, db, bk)) ∨
    (∃ e bk, cmdBet uid uname dirRaw amount? now bucket db =
      (.err e, ensureUser uid uname db, bk)) := by
  unfold cmdBet
  dsimp only
  repeat' split
  all_goals first
    | exact Or.inl ⟨_, _, _, _, rfl⟩
    | exact Or.inr (Or.inl ⟨_, _, rfl⟩)
    | exact Or.inr (Or.inr ⟨_, _, rfl⟩)

/-- Every outcome of placeBet: success, or a rejection other than
rate_limited leaving the db untouched. -/
theorem placeBet_cases (db : DB) (uid : Nat) (dirRaw : String) (amount? : Option Int) :
    (∃ nb pp d2, placeBet uid dirRaw amount? db = (.ok nb pp, d2)) ∨
    (∃ e, placeBet uid dirRaw amount? db = (.err e, db) ∧ e ≠ .rate_limited) := by
  unfold placeBet
  dsimp only
  repeat' split
  all_goals first
    | exact Or.inl ⟨_, _, _, rfl⟩
    | exact Or.inr ⟨_, rfl, by decide⟩

/-! ## C3: rejected bets change no ledger state -/

/-- C3: a rejected bet request — on either surface, for any rejection
reason — creates no bet row and leaves every user's balance unchanged
(the HTTP surface leaves the database entirely unchanged). -/
theorem C3_rejection (db : DB) (uid : Nat) (uname dirRaw : String) (amount? : Option Int)
    (now : ℚ) (bucket : List ℚ) (e : BetReject) :
    ((cmdBet uid uname dirRaw amount? now bucket db).1 = .err e →
     (cmdBet uid uname dirRaw amount? now bucket db).2.1.bets = db.bets ∧
     ∀ w, coinsOf (cmdBet uid uname dirRaw amount? now bucket db).2.1 w = coinsOf db w) ∧
    ((placeBet uid dirRaw amount? db).1 = .err e →
     (placeBet uid dirRaw amount? db).2 = db) := by
  constructor
  · intro h
    rcases cmdBet_cases db uid uname dirRaw amount? now bucket with hc | hc | hc
    · obtain ⟨nb, pp, d2, bk, hc⟩ := hc
      rw [hc] at h
      simp at h
    · obtain ⟨e', bk, hc⟩ := hc
      rw [hc]
      exact ⟨rfl, fun w => rfl⟩
    · obtain ⟨e', bk, hc⟩ := hc
      rw [hc]
      exact ⟨ensureUser_bets uid uname db, fun w => coinsOf_ensureUser uid uname db w⟩
  · intro h
    rcases placeBet_cases db uid dirRaw amount? with ⟨nb, pp, d2, hc⟩ | ⟨e', hc, _⟩
    · rw [hc] at h
      simp at h
    · rw [hc]

/-- Witness for C3: the spec scenario — balance 10, bet 50, rejected as
insufficient funds with no bet row and unchanged balance; and an unknown
user rejected on the HTTP surface with the database unchanged. -/
theorem C3_rejection_w :
    (cmdBet 7 "al" "UP" (some 50) 0 [] sampleDB).2.1.bets = sampleDB.bets ∧
    coinsOf (cmdBet 7 "al" "UP" (some 50) 0 [] sampleDB).2.1 7 = coinsOf sampleDB 7 ∧
    (placeBet 9 "UP" (some 5) sampleDB).2 = sampleDB :=
  ⟨((C3_rejection sampleDB 7 "al" "UP" (some 50) 0 [] .insufficient_funds).1 (by decide)).1,
   ((C3_rejection sampleDB 7 "al" "UP" (some 50) 0 [] .insufficient_funds).1 (by decide)).2 7,
   (C3_rejection sampleDB 9 "al" "UP" (some 5) 0 [] .user_not_found).2 (by decide)⟩

/-! ## C4: rate limiting across the two surfaces -/

/-- C4 as stated is false: the HTTP surface never consults the rate
limiter.  With limiter state [0, 1, 2] at time 3 the user is over the
limit — the bot surface rejects with rate_limited — yet the identical
HTTP request is admitted. -/
theorem C4_rate_limit_cex :
    (isRateLimited [0, 1, 2] 3).1 = true ∧
    (cmdBet 7 "al" "UP" (some 5) 3 [0, 1, 2] sampleDB).1 = .err .rate_limited ∧
    (placeBet 7 "UP" (some 5) sampleDB).1 = .ok 5 10 := by decide

/-- C4 amended: only the bot surface checks the per-user rate limit, and
it does so first — an over-limit request is rejected with rate_limited
before any ledger access, leaving the database unchanged; the HTTP
surface applies no rate limit and can never reject with rate_limited. -/
theorem C4_rate_limit_amended :
    (∀ (db : DB) (uid : Nat) (uname dirRaw : String) (amount? : Option Int)
       (now : ℚ) (bucket : List ℚ),
      (isRateLimited bucket now).1 = true →
      cmdBet uid uname dirRaw amount? now bucket db =
        (.err .rate_limited, db, (isRateLimited bucket now).2)) ∧
    (∀ (db : DB) (uid : Nat) (dirRaw : String) (amount? : Option Int),
      (placeBet uid dirRaw amount? db).1 ≠ .err .rate_limited) := by
  constructor
  · intro db uid uname dirRaw amount? now bucket h
    have hp : isRateLimited bucket now = (true, (isRateLimited bucket now).2) := by
      rw [← h]
    unfold cmdBet
    rw [hp]
  · intro db uid dirRaw amount? h
    rcases placeBet_cases db uid dirRaw amount? with ⟨nb, pp, d2, hc⟩ | ⟨e', hc, hne⟩
    · rw [hc] at h
      simp at h
    · rw [hc] at h
      simp only [BetResult.err.injEq] at h
      exact hne h

/-- Witness for the amended C4. -/
theorem C4_rate_limit_amended_w :
    cmdBet 7 "al" "UP" (some 5) 3 [0, 1, 2] sampleDB =
      (.err .rate_limited, sampleDB, (isRateLimited [0, 1, 2] 3).2) ∧
    (placeBet 7 "UP" (some 5) sampleDB).1 ≠ .err .rate_limited :=
  ⟨C4_rate_limit_amended.1 sampleDB 7 "al" "UP" (some 5) 3 [0, 1, 2] (by decide),
   C4_rate_limit_amended.2 sampleDB 7 "UP" (some 5)⟩

/-! ## C10: the HTTP surface never creates users -/

/-- C10: an HTTP bet whose user_id has no row is always rejected with the
database fully unchanged (no user row created, nothing debited, no bet
inserted); when the request is otherwise well-formed against an open
market the rejection reason is user_not_found. -/
theorem C10_http_unknown_user (db : DB) (uid : Nat) (dirRaw : String) (amount? : Option Int)
    (hu : findUser db uid = none) :
    ((placeBet uid dirRaw amount? db).2 = db ∧
     ∃ e, (placeBet uid dirRaw amount? db).1 = .err e) ∧
    (∀ a m, (dirRaw = "UP" ∨ dirRaw = "DOWN") → amount? = some a →
      1 ≤ a → a ≤ 10000 → getOpenMarket db = some m →
      (placeBet uid dirRaw amount? db).1 = .err .user_not_found) := by
  constructor
  · unfold placeBet
    dsimp only
    repeat' split
    all_goals first
      | exact ⟨rfl, _, rfl⟩
      | (exfalso; simp_all)
  · intro a m hdir ha h1 h2 hm'
    subst ha
    unfold placeBet
    rw [if_neg (not_not_intro hdir)]
    dsimp only
    rw [if_neg (not_lt.mpr h1), if_neg (not_lt.mpr h2), hm']
    dsimp only
    rw [hu]

/-- Witness for C10: user 9 has no row in sampleDB. -/
theorem C10_http_unknown_user_w :
    (placeBet 9 "UP" (some 5) sampleDB).2 = sampleDB ∧
    (placeBet 9 "UP" (some 5) sampleDB).1 = .err .user_not_found :=
  ⟨(C10_http_unknown_user sampleDB 9 "UP" (some 5) (by decide)).1.1,
   (C10_http_unknown_user sampleDB 9 "UP" (some 5) (by decide)).2 5
     ⟨0, 100, none, 0, some 300, .OPEN⟩ (Or.inl rfl) rfl (by decide) (by decide) (by decide)⟩

end CoinPredict

namespace CoinPredict

/-! ## C9: weekly gain and rollover -/

/-- C9: weeklyGain is the current balance minus the snapshot balance for
the current week (0 when no snapshot row exists), and immediately after a
rollover — which replaces the whole snapshot set with every user's
current balance — weeklyGain is 0 for every user. -/
theorem C9_weekly_gain (db : DB) (week : String) (uid : Nat) :
    weeklyGain db week uid = coinsOf db uid - snapshotCoins db week uid ∧
    weeklyGain (refreshWeeklySnapshot week db) week uid = 0 := by
  refine ⟨rfl, ?_⟩
  have hp : ((fun s : Snapshot => s.user_id == uid && s.week_start == week) ∘
      (fun u : User => (⟨u.id, u.coins, week⟩ : Snapshot))) = fun u : User => u.id == uid := by
    funext u
    simp
  unfold weeklyGain snapshotCoins refreshWeeklySnapshot
  dsimp only
  rw [List.find?_map, hp]
  unfold coinsOf findUser findUserIn
  dsimp only
  cases h : db.users.find? (fun u => u.id == uid) <;> simp [h]

/-! ## C8: the sliding-window rate limiter -/

/-- C8: starting from an empty bucket, three attempts at t1 ≤ t2 ≤ t3 are
admitted and recorded; a fourth attempt at t4 within the window of the
oldest (t4 − W < t1) is rejected and records nothing; an attempt at t5
with t1 + W ≤ t5 (the window has elapsed since the oldest entry) is
admitted again after pruning. -/
theorem C8_rate_limiter (t1 t2 t3 t4 t5 : ℚ)
    (h12 : t1 ≤ t2) (h23 : t2 ≤ t3) (h34 : t3 ≤ t4)
    (hin : t4 - BET_RATE_LIMIT_WINDOW < t1) (hout : t1 + BET_RATE_LIMIT_WINDOW ≤ t5) :
    isRateLimited [] t1 = (false, [t1]) ∧
    isRateLimited [t1] t2 = (false, [t1, t2]) ∧
    isRateLimited [t1, t2] t3 = (false, [t1, t2, t3]) ∧
    isRateLimited [t1, t2, t3] t4 = (true, [t1, t2, t3]) ∧
    (isRateLimited [t1, t2, t3] t5).1 = false := by
  have c21 : t2 - BET_RATE_LIMIT_WINDOW < t1 := by linarith
  have c31 : t3 - BET_RATE_LIMIT_WINDOW < t1 := by linarith
  have c32 : t3 - BET_RATE_LIMIT_WINDOW < t2 := by linarith
  have c41 : t4 - BET_RATE_LIMIT_WINDOW < t1 := hin
  have c42 : t4 - BET_RATE_LIMIT_WINDOW < t2 := by linarith
  have c43 : t4 - BET_RATE_LIMIT_WINDOW < t3 := by linarith
  have c51 : ¬(t5 - BET_RATE_LIMIT_WINDOW < t1) := not_lt.mpr (by linarith)
  refine ⟨rfl, ?_, ?_, ?_, ?_⟩
  · unfold isRateLimited
    simp [BET_RATE_LIMIT_COUNT, c21]
  · unfold isRateLimited
    simp [BET_RATE_LIMIT_COUNT, c31, c32]
  · unfold isRateLimited
    simp [BET_RATE_LIMIT_COUNT, c41, c42, c43]
  · have hfil : List.filter (fun t => decide (t5 - BET_RATE_LIMIT_WINDOW < t)) [t1, t2, t3] =
        List.filter (fun t => decide (t5 - BET_RATE_LIMIT_WINDOW < t)) [t2, t3] := by
      rw [List.filter_cons]
      simp [c51]
    have hnot : ¬(BET_RATE_LIMIT_COUNT ≤
        (List.filter (fun t => decide (t5 - BET_RATE_LIMIT_WINDOW < t)) [t2, t3]).length) := by
      have := List.length_filter_le (fun t => decide (t5 - BET_RATE_LIMIT_WINDOW < t)) [t2, t3]
      simp only [List.length_cons, List.length_nil] at this
      unfold BET_RATE_LIMIT_COUNT
      omega
    unfold isRateLimited
    dsimp only
    rw [hfil, if_neg hnot]

/-- Witness for C8: attempts at 0, 0, 0, then 1 (rejected) and 60 (admitted). -/
theorem C8_rate_limiter_w :
    isRateLimited [] 0 = (false, [0]) ∧
    isRateLimited [0] 0 = (false, [0, 0]) ∧
    isRateLimited [0, 0] 0 = (false, [0, 0, 0]) ∧
    isRateLimited [0, 0, 0] 1 = (true, [0, 0, 0]) ∧
    (isRateLimited [0, 0, 0] 60).1 = false :=
  C8_rate_limiter 0 0 0 1 60 (by decide) (by decide) (by decide) (by decide) (by decide)

/-! ## C7: the daily reward -/

theorem findUserIn_unique :
    ∀ (us : List User), (us.map User.id).Nodup →
    ∀ {uid : Nat} {u v : User}, findUserIn us uid = some u → v ∈ us → v.id = uid → v = u := by
  intro us
  induction us with
  | nil => intro _ uid u v hu hv; simp at hv
  | cons a l ih =>
    intro hnd uid u v hu hv hvid
    simp only [List.map_cons, List.nodup_cons] at hnd
    unfold findUserIn at hu
    rw [List.find?_cons] at hu
    by_cases ha : a.id = uid
    · rw [show (a.id == uid) = true by simp [ha]] at hu
      dsimp only at hu
      have hua : a = u := by simpa using hu
      rcases List.mem_cons.1 hv with rfl | hvl
      · exact hua
      · exfalso
        apply hnd.1
        rw [ha, ← hvid]
        exact List.mem_map_of_mem User.id hvl
    · rw [show (a.id == uid) = false by simp [ha]] at hu
      dsimp only at hu
      rcases List.mem_cons.1 hv with rfl | hvl
      · exact absurd hvid ha
      · exact ih hnd.2 hu hvl hvid

/-- After any reward event, the target user exists, has today's date as
last-claim and carries the event's username. -/
theorem onReaction_found (uid : Nat) (uname today : String) (nd : Bool) (db : DB) :
    ∃ w, findUser (onReaction uid uname today nd db) uid = some w ∧
      w.last_daily = some today ∧ w.username = uname := by
  unfold onReaction
  dsimp only
  rw [findUser_ensureUser]
  cases hu : findUser db uid with
  | some u =>
    dsimp only
    by_cases hld : u.last_daily = some today
    · rw [if_pos hld]
      refine ⟨{ u with username := uname }, ?_, hld, rfl⟩
      rw [findUser_ensureUser, hu]
    · rw [if_neg hld]
      refine ⟨⟨u.id, uname, u.coins + DAILY_REWARD_AMOUNT, some today⟩, ?_, rfl, rfl⟩
      unfold findUser
      dsimp only
      rw [findUserIn_updUser uid (grantRow today) (fun v => rfl)]
      rw [show findUserIn (ensureUser uid uname db).users uid =
        some { u with username := uname } from by
          have h2 := findUser_ensureUser uid uname db
          simp only [hu] at h2
          exact h2]
      have : u.id = uid := findUserIn_id hu
      simp [grantRow, this]
  | none =>
    dsimp only
    rw [if_neg (by simp)]
    refine ⟨⟨uid, uname, 0 + DAILY_REWARD_AMOUNT, some today⟩, ?_, rfl, rfl⟩
    unfold findUser
    dsimp only
    rw [findUserIn_updUser uid (grantRow today) (fun v => rfl)]
    rw [show findUserIn (ensureUser uid uname db).users uid =
      some ⟨uid, uname, 0, none⟩ from by
        have h2 := findUser_ensureUser uid uname db
        simp only [hu] at h2
        exact h2]
    simp [grantRow]

end CoinPredict

namespace CoinPredict

/-- After any reward event, every row with the target id carries the
event's username. -/
theorem onReaction_usernames (uid : Nat) (uname today : String) (nd : Bool) (db : DB) :
    ∀ v ∈ (onReaction uid uname today nd db).users, v.id = uid → v.username = uname := by
  intro v hv hvid
  unfold onReaction at hv
  dsimp only at hv
  cases hu : findUser (ensureUser uid uname db) uid with
  | none =>
    rw [hu] at hv
    exact ensureUser_username uid uname db v hv hvid
  | some u =>
    rw [hu] at hv
    dsimp only at hv
    by_cases hld : u.last_daily = some today
    · rw [if_pos hld] at hv
      exact ensureUser_username uid uname db v hv hvid
    · rw [if_neg hld] at hv
      obtain ⟨w, hw, rfl⟩ := mem_updUser hv
      by_cases hwid : w.id = uid
      · rw [if_pos hwid]
        dsimp only [grantRow]
        exact ensureUser_username uid uname db w hw hwid
      · rw [if_neg hwid] at hvid ⊢
        exact absurd hvid hwid

/-- A reward event against a state whose target user already has today's
date (and the event's username on every matching row) is a no-op. -/
theorem onReaction_skip (A : DB) (uid : Nat) (uname today : String) (nd : Bool)
    (hw : ∃ w, findUser A uid = some w ∧ w.last_daily = some today)
    (hnames : ∀ v ∈ A.users, v.id = uid → v.username = uname) :
    onReaction uid uname today nd A = A := by
  obtain ⟨w, hw1, hw2⟩ := hw
  have h1 : ensureUser uid uname A = A :=
    ensureUser_eq_self uid uname A (by rw [hw1]; rfl) hnames
  unfold onReaction
  dsimp only
  rw [h1, hw1]
  dsimp only
  rw [if_pos hw2]

/-- C7: the daily reward is granted at most once per UTC date.  A claim
by a user whose last-claim date differs from today credits exactly the
fixed reward and stamps today; a repeated claim on the same date is a
silent no-op; the notification outcome cannot influence the resulting
state; and a second claim event on the same date leaves the state
identical to after the first. -/
theorem C7_daily_reward (db : DB) (uid : Nat) (uname today : String) (nd nd' : Bool) :
    (∀ u, findUser db uid = some u → u.last_daily ≠ some today →
       coinsOf (onReaction uid uname today nd db) uid = coinsOf db uid + DAILY_REWARD_AMOUNT ∧
       lastDailyOf (onReaction uid uname today nd db) uid = some today) ∧
    (findUser db uid = none →
       coinsOf (onReaction uid uname today nd db) uid = DAILY_REWARD_AMOUNT ∧
       lastDailyOf (onReaction uid uname today nd db) uid = some today) ∧
    (∀ u, findUser db uid = some u → u.last_daily = some today → u.username = uname →
       (db.users.map User.id).Nodup →
       onReaction uid uname today nd db = db) ∧
    onReaction uid uname today nd db = onReaction uid uname today nd' db ∧
    onReaction uid uname today nd' (onReaction uid uname today nd db) =
      onReaction uid uname today nd db := by
  refine ⟨?_, ?_, ?_, rfl, ?_⟩
  · intro u hu hld
    have hid' : u.id = uid := findUserIn_id hu
    have hu' : findUser (ensureUser uid uname db) uid = some { u with username := uname } := by
      have h2 := findUser_ensureUser uid uname db
      simp only [hu] at h2
      exact h2
    have e : onReaction uid uname today nd db =
        { ensureUser uid uname db with
          users := updUser uid (grantRow today) (ensureUser uid uname db).users } := by
      unfold onReaction
      dsimp only
      rw [hu']
      dsimp only
      rw [if_neg hld]
    rw [e]
    constructor
    · unfold coinsOf findUser
      dsimp only
      rw [findUserIn_updUser uid (grantRow today) (fun v => rfl)]
      rw [show findUserIn (ensureUser uid uname db).users uid =
        some { u with username := uname } from hu']
      simp [grantRow, hid', coinsOf, findUser, hu]
      rw [show findUserIn db.users uid = some u from hu]
      rfl
    · unfold lastDailyOf findUser
      dsimp only
      rw [findUserIn_updUser uid (grantRow today) (fun v => rfl)]
      rw [show findUserIn (ensureUser uid uname db).users uid =
        some { u with username := uname } from hu']
      simp [grantRow, hid']
  · intro hu
    have hu' : findUser (ensureUser uid uname db) uid = some ⟨uid, uname, 0, none⟩ := by
      have h2 := findUser_ensureUser uid uname db
      simp only [hu] at h2
      exact h2
    have e : onReaction uid uname today nd db =
        { ensureUser uid uname db with
          users := updUser uid (grantRow today) (ensureUser uid uname db).users } := by
      unfold onReaction
      dsimp only
      rw [hu']
      dsimp only
      rw [if_neg (by simp)]
    rw [e]
    constructor
    · unfold coinsOf findUser
      dsimp only
      rw [findUserIn_updUser uid (grantRow today) (fun v => rfl)]
      rw [show findUserIn (ensureUser uid uname db).users uid =
        some ⟨uid, uname, 0, none⟩ from hu']
      simp [grantRow]
    · unfold lastDailyOf findUser
      dsimp only
      rw [findUserIn_updUser uid (grantRow today) (fun v => rfl)]
      rw [show findUserIn (ensureUser uid uname db).users uid =
        some ⟨uid, uname, 0, none⟩ from hu']
      simp [grantRow]
  · intro u hu hld hun hnd2
    apply onReaction_skip
    · exact ⟨u, hu, hld⟩
    · intro v hv hvid
      rw [findUserIn_unique db.users hnd2 hu hv hvid]
      exact hun
  · obtain ⟨w, hw1, hw2, _⟩ := onReaction_found uid uname today nd db
    exact onReaction_skip _ uid uname today nd' ⟨w, hw1, hw2⟩
      (onReaction_usernames uid uname today nd db)

/-- State where user 7 already claimed on date d1. -/
def claimedDB : DB :=
  { users := [⟨7, "al", 10, some "d1"⟩],
    markets := [⟨0, 100, none, 0, some 300, .OPEN⟩],
    bets := [], snapshots := [], nextMarketId := 1, nextBetId := 0 }

/-- Witness for C7: a first claim credits 100 and stamps the date, a
claim on an already-claimed date is a no-op, and a repeated claim event
is idempotent. -/
theorem C7_daily_reward_w :
    (coinsOf (onReaction 7 "al" "d1" true sampleDB) 7 =
       coinsOf sampleDB 7 + DAILY_REWARD_AMOUNT ∧
     lastDailyOf (onReaction 7 "al" "d1" true sampleDB) 7 = some "d1") ∧
    onReaction 7 "al" "d1" true claimedDB = claimedDB ∧
    onReaction 7 "al" "d1" false (onReaction 7 "al" "d1" true sampleDB) =
      onReaction 7 "al" "d1" true sampleDB :=
  ⟨(C7_daily_reward sampleDB 7 "al" "d1" true false).1 ⟨7, "al", 10, none⟩
      (by decide) (by decide),
   (C7_daily_reward claimedDB 7 "al" "d1" true false).2.2.1 ⟨7, "al", 10, some "d1"⟩
      (by decide) (by decide) (by decide) (by decide),
   (C7_daily_reward sampleDB 7 "al" "d1" true false).2.2.2.2⟩

end CoinPredict

namespace CoinPredict

/-! ## The reachable-state invariant (C5, C6) -/

/-- Invariant maintained by every operation: balances are nonnegative,
bet amounts are nonnegative, user ids are unique, market ids are below
the AUTOINCREMENT counter, and at most one market is OPEN. -/
structure Inv (db : DB) : Prop where
  usersNonneg : ∀ u ∈ db.users, 0 ≤ u.coins
  betsNonneg : ∀ b ∈ db.bets, 0 ≤ b.amount
  userIds : (db.users.map User.id).Nodup
  marketIdLt : ∀ m ∈ db.markets, m.id < db.nextMarketId
  openLe : openCount db ≤ 1

theorem Inv_initDB : Inv initDB := by
  constructor <;> simp [initDB, openCount]

theorem eq_singleton_of_mem_of_length_le {α : Type} {l : List α} {x : α}
    (hx : x ∈ l) (h : l.length ≤ 1) : l = [x] := by
  cases l with
  | nil => simp at hx
  | cons a t =>
    cases t with
    | nil => simp at hx; simp [hx]
    | cons b t2 => simp at h

theorem openCount_closeMarketRows {ms : List Market} {m : Market} (cp t : ℚ)
    (hmem : m ∈ ms) (hopen : m.status = .OPEN)
    (hle : (ms.filter fun k => k.status == MarketStatus.OPEN).length ≤ 1) :
    (closeMarketRows m.id cp t ms).filter (fun k => k.status == MarketStatus.OPEN) = [] := by
  have hmf : m ∈ ms.filter fun k => k.status == MarketStatus.OPEN :=
    List.mem_filter.2 ⟨hmem, by simp [hopen]⟩
  have hfil : ms.filter (fun k => k.status == MarketStatus.OPEN) = [m] :=
    eq_singleton_of_mem_of_length_le hmf hle
  unfold closeMarketRows
  rw [List.filter_map]
  rw [List.eq_nil_iff_forall_not_mem]
  intro k hk
  rw [List.mem_map] at hk
  obtain ⟨a, ha, rfl⟩ := hk
  have ha2 := (List.mem_filter.1 ha).2
  simp only [Function.comp] at ha2
  by_cases hid : a.id = m.id
  · rw [if_pos hid] at ha2
    simp at ha2
  · rw [if_neg hid] at ha2
    have haopen : a.status = .OPEN := by simpa using ha2
    have : a ∈ ms.filter fun k => k.status == MarketStatus.OPEN :=
      List.mem_filter.2 ⟨(List.mem_filter.1 ha).1, by simp [haopen]⟩
    rw [hfil] at this
    simp at this
    exact hid (by rw [this])

theorem openCount_openNewMarket (p : Option ℚ) (t : ℚ) (db : DB) :
    openCount (openNewMarket p t db) ≤ openCount db + 1 := by
  cases p with
  | none => exact Nat.le_succ_of_le le_rfl
  | some v =>
    unfold openCount openNewMarket
    dsimp only
    rw [List.filter_append]
    simp

theorem openNewMarket_inv {db : DB} (p : Option ℚ) (t : ℚ)
    (h : Inv db) (hze : openCount db = 0) : Inv (openNewMarket p t db) := by
  cases p with
  | none => exact h
  | some v =>
    unfold openNewMarket
    dsimp only
    constructor
    · exact h.usersNonneg
    · exact h.betsNonneg
    · exact h.userIds
    · intro m hm
      dsimp only at hm ⊢
      rw [List.mem_append, List.mem_singleton] at hm
      rcases hm with hm | rfl
      · exact Nat.lt_succ_of_lt (h.marketIdLt m hm)
      · exact Nat.lt_succ_self _
    · unfold openCount at hze ⊢
      dsimp only
      rw [List.filter_append]
      simp [hze]

theorem ensureUser_inv {db : DB} (uid : Nat) (un : String) (h : Inv db) :
    Inv (ensureUser uid un db) := by
  unfold ensureUser
  dsimp only
  by_cases hs : (findUserIn db.users uid).isSome
  · rw [if_pos hs]
    constructor
    · intro u hu
      obtain ⟨w, hw, rfl⟩ := mem_updUser hu
      by_cases hwid : w.id = uid
      · rw [if_pos hwid]
        exact h.usersNonneg w hw
      · rw [if_neg hwid]
        exact h.usersNonneg w hw
    · exact h.betsNonneg
    · rw [updUser_map_ids uid (fun u => { u with username := un }) (fun v => rfl)]
      exact h.userIds
    · exact h.marketIdLt
    · exact h.openLe
  · rw [if_neg hs]
    have hnone : findUserIn db.users uid = none := by
      cases hfind : findUserIn db.users uid with
      | none => rfl
      | some w => rw [hfind] at hs; simp at hs
    have habs : ∀ v ∈ db.users, ¬(v.id = uid) := by
      intro v hv hvid
      unfold findUserIn at hnone
      have := List.find?_eq_none.1 hnone v hv
      simp [hvid] at this
    constructor
    · intro u hu
      obtain ⟨w, hw, rfl⟩ := mem_updUser hu
      rw [List.mem_append, List.mem_singleton] at hw
      rcases hw with hw | rfl
      · by_cases hwid : w.id = uid
        · rw [if_pos hwid]; exact h.usersNonneg w hw
        · rw [if_neg hwid]; exact h.usersNonneg w hw
      · simp
    · exact h.betsNonneg
    · rw [updUser_map_ids uid (fun u => { u with username := un }) (fun v => rfl)]
      rw [List.map_append]
      rw [List.nodup_append]
      refine ⟨h.userIds, by simp, ?_⟩
      intro x hx hcon
      simp at hcon
      subst hcon
      rw [List.mem_map] at hx
      obtain ⟨v, hv, hvid⟩ := hx
      exact habs v hv hvid
    · exact h.marketIdLt
    · exact h.openLe

end CoinPredict

namespace CoinPredict

/-- Inserting an admitted bet (stake already checked against the balance)
preserves the invariant. -/
theorem admissionInsert_inv {db : DB} (uid : Nat) (a : Int) (mid bid : Nat) (d : Direction)
    (h : Inv db) (ha : 0 ≤ a) (hbal : a ≤ coinsOf db uid) :
    Inv { db with
      users := updUser uid (fun v => { v with coins := v.coins - a }) db.users,
      bets := db.bets ++ [⟨bid, uid, mid, d, a, false⟩],
      nextBetId := db.nextBetId + 1 } := by
  constructor
  · intro u hu
    dsimp only at hu
    obtain ⟨w, hw, rfl⟩ := mem_updUser hu
    by_cases hwid : w.id = uid
    · rw [if_pos hwid]
      dsimp only
      cases hf : findUser db uid with
      | none =>
        exfalso
        unfold findUser findUserIn at hf
        have := List.find?_eq_none.1 hf w hw
        simp [hwid] at this
      | some u0 =>
        have hwu : w = u0 := findUserIn_unique db.users h.userIds hf hw hwid
        have : coinsOf db uid = u0.coins := by
          unfold coinsOf
          rw [hf]
          rfl
        subst hwu
        rw [this] at hbal
        omega
    · rw [if_neg hwid]
      exact h.usersNonneg w hw
  · intro b hb
    dsimp only at hb
    rw [List.mem_append, List.mem_singleton] at hb
    rcases hb with hb | rfl
    · exact h.betsNonneg b hb
    · exact ha
  · dsimp only
    rw [updUser_map_ids uid (fun v => { v with coins := v.coins - a }) (fun v => rfl)]
    exact h.userIds
  · exact h.marketIdLt
  · exact h.openLe

/-- placeBet preserves the invariant. -/
theorem placeBet_inv (db : DB) (uid : Nat) (dirRaw : String) (amount? : Option Int)
    (h : Inv db) : Inv (placeBet uid dirRaw amount? db).2 := by
  unfold placeBet
  by_cases hdir : ¬(dirRaw = "UP" ∨ dirRaw = "DOWN")
  · rw [if_pos hdir]; exact h
  · rw [if_neg hdir]
    cases amount? with
    | none => exact h
    | some a =>
      dsimp only
      by_cases h1 : a < 1
      · rw [if_pos h1]; exact h
      · rw [if_neg h1]
        by_cases h2 : a > 10000
        · rw [if_pos h2]; exact h
        · rw [if_neg h2]
          cases hm : getOpenMarket db with
          | none => exact h
          | some market =>
            dsimp only
            cases hu : findUser db uid with
            | none => exact h
            | some user =>
              dsimp only
              by_cases hb : user.coins < a
              · rw [if_pos hb]; exact h
              · rw [if_neg hb]
                by_cases hdup : (duplicateBets db uid market.id).isEmpty = false
                · rw [if_pos hdup]; exact h
                · rw [if_neg hdup]
                  dsimp only
                  apply admissionInsert_inv uid a market.id db.nextBetId
                    (parseDirection dirRaw) h (by omega)
                  unfold coinsOf
                  rw [hu]
                  dsimp only [Option.map_some', Option.getD_some]
                  omega

/-- cmdBet preserves the invariant. -/
theorem cmdBet_inv (db : DB) (uid : Nat) (uname dirRaw : String) (amount? : Option Int)
    (now : ℚ) (bucket : List ℚ) (h : Inv db) :
    Inv (cmdBet uid uname dirRaw amount? now bucket db).2.1 := by
  unfold cmdBet
  cases hrl : isRateLimited bucket now with
  | mk limited bucket' =>
    cases limited
    · dsimp only
      by_cases hdir : ¬(dirRaw = "UP" ∨ dirRaw = "DOWN")
      · rw [if_pos hdir]; exact h
      · rw [if_neg hdir]
        cases amount? with
        | none => exact h
        | some a =>
          dsimp only
          by_cases h1 : a < MIN_BET_AMOUNT
          · rw [if_pos h1]; exact h
          · rw [if_neg h1]
            by_cases h2 : a > MAX_BET_AMOUNT
            · rw [if_pos h2]; exact h
            · rw [if_neg h2]
              have hens : Inv (ensureUser uid uname db) := ensureUser_inv uid uname h
              cases hm : getOpenMarket (ensureUser uid uname db) with
              | none => exact hens
              | some market =>
                dsimp only
                by_cases hb : a > coinsOf (ensureUser uid uname db) uid
                · rw [if_pos hb]; exact hens
                · rw [if_neg hb]
                  by_cases hdup :
                      (duplicateBets (ensureUser uid uname db) uid market.id).isEmpty = false
                  · rw [if_pos hdup]; exact hens
                  · rw [if_neg hdup]
                    dsimp only
                    apply admissionInsert_inv uid a market.id
                      (ensureUser uid uname db).nextBetId (parseDirection dirRaw) hens
                      (by unfold MIN_BET_AMOUNT at h1; omega)
                    omega
    · exact h

end CoinPredict

namespace CoinPredict

theorem foldl_creditStep_nonneg (f : Bet → Int) :
    ∀ (L : List Bet) (us : List User),
    (∀ u ∈ us, 0 ≤ u.coins) → (∀ b ∈ L, 0 ≤ f b) →
    ∀ u ∈ L.foldl (creditStep f) us, 0 ≤ u.coins := by
  intro L
  induction L with
  | nil => intro us hus _ u hu; exact hus u hu
  | cons b L ih =>
    intro us hus hL u hu
    simp only [List.foldl_cons] at hu
    refine ih (creditStep f us b) ?_ (fun c hc => hL c (List.mem_cons_of_mem b hc)) u hu
    intro v hv
    unfold creditStep at hv
    obtain ⟨w, hw, rfl⟩ := mem_updUser hv
    by_cases hwid : w.id = b.user_id
    · rw [if_pos hwid]
      have := hL b (List.mem_cons_self b L)
      have := hus w hw
      dsimp only
      omega
    · rw [if_neg hwid]
      exact hus w hw

theorem foldl_creditStep_ids (f : Bet → Int) :
    ∀ (L : List Bet) (us : List User),
    (L.foldl (creditStep f) us).map User.id = us.map User.id := by
  intro L
  induction L with
  | nil => intro us; rfl
  | cons b L ih =>
    intro us
    simp only [List.foldl_cons]
    rw [ih]
    unfold creditStep
    exact updUser_map_ids b.user_id (fun u => { u with coins := u.coins + f b }) (fun v => rfl) us

/-- Settlement preserves the invariant. -/
theorem resolveMarket_inv (cp rp : Option ℚ) (now : ℚ) {db : DB} (h : Inv db) :
    Inv (resolveMarket cp rp now db) := by
  cases cp with
  | none => exact h
  | some q =>
    cases hm : getOpenMarket db with
    | none =>
      have e : resolveMarket (some q) rp now db = openNewMarket rp now db := by
        unfold resolveMarket
        rw [hm]
      rw [e]
      apply openNewMarket_inv rp now h
      unfold openCount
      rw [getOpenMarket_none hm]
      rfl
    | some m =>
      obtain ⟨hmem, hopen⟩ := getOpenMarket_mem hm
      rw [resolveMarket_open db rp q now m hm]
      dsimp only
      have hclosed := openCount_closeMarketRows q now hmem hopen h.openLe
      have hids : ∀ (L : List Bet) (f : Bet → Int),
          (L.foldl (creditStep f) db.users).map User.id = db.users.map User.id :=
        fun L f => foldl_creditStep_ids f L db.users
      have hbetsNN : ∀ b ∈ db.bets.filter (fun b => b.market_id == m.id && !b.resolved),
          0 ≤ b.amount := fun b hb => h.betsNonneg b (List.mem_filter.1 hb).1
      set L0 := db.bets.filter fun b => b.market_id == m.id && !b.resolved with hL0
      by_cases htie : priceDiff q m.open_price < 1/100
      · rw [if_pos htie]
        apply openNewMarket_inv
        · constructor
          · intro u hu
            dsimp only at hu
            exact foldl_creditStep_nonneg (fun b => b.amount) L0 db.users
              h.usersNonneg (fun b hb => hbetsNN b hb) u hu
          · intro b hb
            dsimp only at hb
            rw [List.mem_map] at hb
            obtain ⟨c, hc, rfl⟩ := hb
            by_cases hcm : c.market_id = m.id
            · rw [if_pos hcm]
              exact h.betsNonneg c hc
            · rw [if_neg hcm]
              exact h.betsNonneg c hc
          · dsimp only
            rw [hids]
            exact h.userIds
          · intro k hk
            dsimp only at hk ⊢
            unfold closeMarketRows at hk
            rw [List.mem_map] at hk
            obtain ⟨c, hc, rfl⟩ := hk
            by_cases hcm : c.id = m.id
            · rw [if_pos hcm]
              exact h.marketIdLt c hc
            · rw [if_neg hcm]
              exact h.marketIdLt c hc
          · unfold openCount
            dsimp only
            rw [hclosed]
            simp
        · unfold openCount
          dsimp only
          rw [hclosed]
          rfl
      · rw [if_neg htie]
        apply openNewMarket_inv
        · constructor
          · intro u hu
            dsimp only at hu
            refine foldl_creditStep_nonneg (fun b => b.amount * WIN_MULTIPLIER) _ db.users
              h.usersNonneg ?_ u hu
            intro b hb
            have := hbetsNN b (List.mem_filter.1 hb).1
            simp only [WIN_MULTIPLIER]
            omega
          · intro b hb
            dsimp only at hb
            rw [List.mem_map] at hb
            obtain ⟨c, hc, rfl⟩ := hb
            by_cases hcm : c.market_id = m.id
            · rw [if_pos hcm]
              exact h.betsNonneg c hc
            · rw [if_neg hcm]
              exact h.betsNonneg c hc
          · dsimp only
            rw [hids]
            exact h.userIds
          · intro k hk
            dsimp only at hk ⊢
            unfold closeMarketRows at hk
            rw [List.mem_map] at hk
            obtain ⟨c, hc, rfl⟩ := hk
            by_cases hcm : c.id = m.id
            · rw [if_pos hcm]
              exact h.marketIdLt c hc
            · rw [if_neg hcm]
              exact h.marketIdLt c hc
          · unfold openCount
            dsimp only
            rw [hclosed]
            simp
        · unfold openCount
          dsimp only
          rw [hclosed]
          rfl

/-- The daily reward preserves the invariant. -/
theorem onReaction_inv (uid : Nat) (uname today : String) (nd : Bool) {db : DB}
    (h : Inv db) : Inv (onReaction uid uname today nd db) := by
  unfold onReaction
  dsimp only
  have hens : Inv (ensureUser uid uname db) := ensureUser_inv uid uname h
  cases hf : findUser (ensureUser uid uname db) uid with
  | none => exact hens
  | some u =>
    dsimp only
    by_cases hld : u.last_daily = some today
    · rw [if_pos hld]
      exact hens
    · rw [if_neg hld]
      constructor
      · intro v hv
        dsimp only at hv
        obtain ⟨w, hw, rfl⟩ := mem_updUser hv
        by_cases hwid : w.id = uid
        · rw [if_pos hwid]
          have := hens.usersNonneg w hw
          unfold grantRow DAILY_REWARD_AMOUNT
          dsimp only
          omega
        · rw [if_neg hwid]
          exact hens.usersNonneg w hw
      · exact hens.betsNonneg
      · dsimp only
        rw [updUser_map_ids uid (grantRow today) (fun v => rfl)]
        exact hens.userIds
      · exact hens.marketIdLt
      · exact hens.openLe

/-- The weekly rollover preserves the invariant. -/
theorem refreshWeeklySnapshot_inv (week : String) {db : DB} (h : Inv db) :
    Inv (refreshWeeklySnapshot week db) := by
  unfold refreshWeeklySnapshot
  exact ⟨h.usersNonneg, h.betsNonneg, h.userIds, h.marketIdLt, h.openLe⟩

/-- Every operation preserves the invariant. -/
theorem step_inv (op : Op) (s : Sys) (h : Inv s.db) : Inv (step op s).db := by
  cases op with
  | betBot uid uname d a now => exact cmdBet_inv s.db uid uname d a now (s.buckets uid) h
  | betHttp uid d a => exact placeBet_inv s.db uid d a h
  | settle cp rp now => exact resolveMarket_inv cp rp now h
  | reward uid uname today nd => exact onReaction_inv uid uname today nd h
  | rollover w => exact refreshWeeklySnapshot_inv w h
  | upsert uid uname => exact ensureUser_inv uid uname h

theorem run_inv : ∀ (ops : List Op) (s : Sys), Inv s.db → Inv (run ops s).db := by
  intro ops
  induction ops with
  | nil => intro s h; exact h
  | cons op ops ih =>
    intro s h
    exact ih (step op s) (step_inv op s h)

theorem reachable_inv (ops : List Op) : Inv (run ops initSys).db :=
  run_inv ops initSys Inv_initDB

end CoinPredict

namespace CoinPredict

/-! ## C5: balances are never negative -/

/-- C5: after any sequence of bet admissions (both surfaces), settlements,
reward grants, rollovers and user upserts starting from the fresh
database, every stored balance — and hence every queried balance — is
nonnegative. -/
theorem C5_nonneg_balance (ops : List Op) :
    (∀ u ∈ (run ops initSys).db.users, 0 ≤ u.coins) ∧
    (∀ uid, 0 ≤ coinsOf (run ops initSys).db uid) := by
  have h := reachable_inv ops
  refine ⟨h.usersNonneg, ?_⟩
  intro uid
  unfold coinsOf
  cases hf : findUser (run ops initSys).db uid with
  | none => simp
  | some u =>
    simp only [Option.map_some', Option.getD_some]
    unfold findUser findUserIn at hf
    exact h.usersNonneg u (List.mem_of_find?_eq_some hf)

/-- Witness for C5: a concrete run (user upsert, daily reward, a bet, a
settlement) ends with the user's row holding a nonnegative balance. -/
theorem C5_nonneg_balance_w :
    (0 : Int) ≤ (User.mk 7 "al" 100 (some "d1")).coins ∧
    0 ≤ coinsOf (run [.upsert 7 "al", .reward 7 "al" "d1" true] initSys).db 7 :=
  ⟨(C5_nonneg_balance [.upsert 7 "al", .reward 7 "al" "d1" true]).1
      ⟨7, "al", 100, some "d1"⟩ (by decide),
   (C5_nonneg_balance [.upsert 7 "al", .reward 7 "al" "d1" true]).2 7⟩

/-! ## C6: the OPEN-market invariant -/

/-- C6 as stated is false: zero OPEN markets is reachable.  Concretely,
a settlement tick closes the open market but its reopening price fetch
fails, leaving no OPEN market until a later tick. -/
theorem C6_open_market_cex :
    openCount (run [.settle (some 100) (some 100) 0, .settle (some 200) none 300]
      initSys).db = 0 := by decide

/-- C6 amended: at every reachable state at most one market is OPEN —
settlement closes the OPEN market and immediately tries to open a new
one, and no operation ever creates a second OPEN market — but when the
price feed is unavailable (or before the first market is opened) there
are zero OPEN markets until a later tick restores the invariant. -/
theorem C6_open_market_amended (ops : List Op) :
    openCount (run ops initSys).db ≤ 1 :=
  (reachable_inv ops).openLe

end CoinPredict
